import Mathlib

/-!
Verification development for the pewpew-world dashboard core logic.

Strings from the TypeScript sources are modelled as `List Char`; JavaScript
numbers are modelled as exact rationals (`ℚ`); signed integer tick values as
`ℤ`.  Each definition below is a direct shallow embedding of the function it
is named after in the repository sources.
-/

namespace PewPew

/-! ## Color codec
Embeds `parseColoredString` (src/frontend/components/colorized-text.tsx) and
`stripColorCodes` (src/unnamed/part_004, helpers/text-utils). -/

/-- The implicit opaque-white color `"ffffffff"` used for plain segments. -/
def whiteColor : List Char := ['f', 'f', 'f', 'f', 'f', 'f', 'f', 'f']

/-- Embedding of JavaScript `s.split("#")`: the list of maximal runs between
occurrences of the sentinel character, always nonempty, possibly
containing empty runs (for adjacent sentinels / leading / trailing ones). -/
def splitOnHash : List Char → List (List Char)
  | [] => [[]]
  | c :: rest =>
    if c = '#' then [] :: splitOnHash rest
    else
      match splitOnHash rest with
      | [] => [[c]]
      | p :: ps => (c :: p) :: ps

/-- A decoded run of text with its RRGGBBAA color, as in colorized-text.tsx. -/
structure TextSegment where
  text : List Char
  color : List Char
  deriving DecidableEq, Repr

/-- The loop body of `parseColoredString` over `parts[1..]`: a part of length
at least 8 yields its first 8 chars as color and the rest as text (emitted
only when nonempty); a shorter nonempty part is emitted verbatim as white. -/
def parseSegs : List (List Char) → List TextSegment
  | [] => []
  | part :: rest =>
    (if 8 ≤ part.length then
      (if part.drop 8 ≠ [] then [⟨part.drop 8, part.take 8⟩] else [])
    else if part ≠ [] then [⟨part, whiteColor⟩] else []) ++ parseSegs rest

/-- Embedding of `parseColoredString` from colorized-text.tsx. -/
def parseColoredString (s : List Char) : List TextSegment :=
  match splitOnHash s with
  | [] => []
  | p0 :: rest => (if p0 ≠ [] then [⟨p0, whiteColor⟩] else []) ++ parseSegs rest

/-- The loop body of `stripColorCodes` over `parts[1..]`: drop the 8-char
color of long parts, keep short parts verbatim. -/
def stripSegs : List (List Char) → List Char
  | [] => []
  | part :: rest => (if 8 ≤ part.length then part.drop 8 else part) ++ stripSegs rest

/-- Embedding of `stripColorCodes` from src/unnamed/part_004. -/
def stripColorCodes (s : List Char) : List Char :=
  match splitOnHash s with
  | [] => []
  | p0 :: rest => p0 ++ stripSegs rest

/-- Concatenation of the text fields of a decoded segment list. -/
def segsText (segs : List TextSegment) : List Char :=
  (segs.map TextSegment.text).flatten

theorem splitOnHash_ne_nil (s : List Char) : splitOnHash s ≠ [] := by
  cases s with
  | nil => simp [splitOnHash]
  | cons c rest =>
    simp only [splitOnHash]
    split
    · simp
    · split
      · simp
      · simp

theorem segsText_parseSegs (parts : List (List Char)) :
    segsText (parseSegs parts) = stripSegs parts := by
  induction parts with
  | nil => rfl
  | cons part rest ih =>
    simp only [parseSegs, stripSegs, segsText, List.map_append, List.flatten_append]
    split
    · rename_i h8
      split
      · rename_i hne
        simpa [segsText] using ih
      · rename_i hne
        simp only [not_not] at hne
        simpa [segsText, hne] using ih
    · split
      · simpa [segsText] using ih
      · rename_i hlong hne
        simp only [not_not] at hne
        simpa [segsText, hne] using ih

theorem segsText_parseColoredString (s : List Char) :
    segsText (parseColoredString s) = stripColorCodes s := by
  unfold parseColoredString stripColorCodes
  cases hsp : splitOnHash s with
  | nil => rfl
  | cons p0 rest =>
    simp only [segsText, List.map_append, List.flatten_append]
    rw [show ((parseSegs rest).map TextSegment.text).flatten = segsText (parseSegs rest) from rfl,
      segsText_parseSegs]
    split
    · simp [segsText]
    · rename_i h
      simp only [not_not] at h
      simp [segsText, h]

theorem not_hash_mem_splitOnHash (s : List Char) :
    ∀ p ∈ splitOnHash s, '#' ∉ p := by
  induction s with
  | nil => simp [splitOnHash]
  | cons c rest ih =>
    intro p hp
    simp only [splitOnHash] at hp
    by_cases hc : c = '#'
    · rw [if_pos hc] at hp
      rcases List.mem_cons.1 hp with h | h
      · simp [h]
      · exact ih p h
    · rw [if_neg hc] at hp
      cases hsp : splitOnHash rest with
      | nil => exact absurd hsp (splitOnHash_ne_nil rest)
      | cons q qs =>
        rw [hsp] at hp
        rcases List.mem_cons.1 hp with h | h
        · subst h
          intro hmem
          rcases List.mem_cons.1 hmem with h | h
          · exact hc h.symm
          · exact ih q (hsp ▸ List.mem_cons_self q qs) h
        · exact ih p (hsp ▸ List.mem_cons_of_mem q h)

theorem splitOnHash_of_not_mem (s : List Char) (h : '#' ∉ s) : splitOnHash s = [s] := by
  induction s with
  | nil => rfl
  | cons c rest ih =>
    simp only [List.mem_cons, not_or] at h
    have hc : ¬c = '#' := fun hc => h.1 (Eq.symm hc)
    simp only [splitOnHash, if_neg hc, ih h.2]

theorem not_hash_stripSegs (parts : List (List Char))
    (h : ∀ p ∈ parts, '#' ∉ p) : '#' ∉ stripSegs parts := by
  induction parts with
  | nil => simp [stripSegs]
  | cons part rest ih =>
    simp only [stripSegs, List.mem_append, not_or]
    refine ⟨?_, ih fun p hp => h p (List.mem_cons_of_mem part hp)⟩
    have hpart := h part (List.mem_cons_self part rest)
    split
    · exact fun hm => hpart (List.mem_of_mem_drop hm)
    · exact hpart

theorem not_hash_stripColorCodes (s : List Char) : '#' ∉ stripColorCodes s := by
  unfold stripColorCodes
  cases hsp : splitOnHash s with
  | nil => simp
  | cons p0 rest =>
    have hmem := not_hash_mem_splitOnHash s
    rw [hsp] at hmem
    simp only [List.mem_append, not_or]
    exact ⟨hmem p0 (List.mem_cons_self p0 rest),
      not_hash_stripSegs rest fun p hp => hmem p (List.mem_cons_of_mem p0 hp)⟩

theorem stripColorCodes_of_not_mem (s : List Char) (h : '#' ∉ s) :
    stripColorCodes s = s := by
  unfold stripColorCodes
  rw [splitOnHash_of_not_mem s h]
  simp [stripSegs]

theorem stripSegs_length (parts : List (List Char)) :
    (stripSegs parts).length ≤ (parts.map List.length).sum := by
  induction parts with
  | nil => simp [stripSegs]
  | cons part rest ih =>
    simp only [stripSegs, List.length_append, List.map_cons, List.sum_cons]
    have hbase : (if 8 ≤ part.length then part.drop 8 else part).length ≤ part.length := by
      split
      · simp [Nat.sub_le]
      · exact le_refl _
    omega

theorem splitOnHash_length_sum (s : List Char) :
    ((splitOnHash s).map List.length).sum ≤ s.length := by
  induction s with
  | nil => simp [splitOnHash]
  | cons c rest ih =>
    simp only [splitOnHash]
    split
    · simpa using Nat.le_succ_of_le ih
    · cases hsp : splitOnHash rest with
      | nil => exact absurd hsp (splitOnHash_ne_nil rest)
      | cons q qs =>
        rw [hsp] at ih
        simp only [List.map_cons, List.sum_cons, List.length_cons] at ih ⊢
        omega

theorem parseSegs_segment_shape (parts : List (List Char)) :
    ∀ seg ∈ parseSegs parts, seg.text ≠ [] ∧ seg.color.length = 8 := by
  induction parts with
  | nil => simp [parseSegs]
  | cons part rest ih =>
    intro seg hseg
    simp only [parseSegs, List.mem_append] at hseg
    rcases hseg with h | h
    · split at h
      · rename_i h8
        split at h
        · rename_i hne
          rcases List.mem_singleton.1 h with rfl
          exact ⟨hne, by simpa using h8⟩
        · exact absurd h (List.not_mem_nil seg)
      · split at h
        · rename_i hne
          rcases List.mem_singleton.1 h with rfl
          exact ⟨hne, rfl⟩
        · exact absurd h (List.not_mem_nil seg)
    · exact ih seg h

/-- Claim C4: for every string whose color directives all have nonempty
payloads (no split part of length exactly 8, no empty part), concatenating the
text fields of the segments of parseColoredString equals stripColorCodes. -/
theorem claim4_decode_text_eq_strip (s : List Char)
    (_h : ∀ p ∈ (splitOnHash s).tail, p.length ≠ 8 ∧ p ≠ []) :
    segsText (parseColoredString s) = stripColorCodes s :=
  segsText_parseColoredString s

/-- Witness for claim C4 at the concrete input "ab#ff0000ffcd". -/
theorem claim4_decode_text_eq_strip_witness :
    segsText (parseColoredString ("ab#ff0000ffcd".toList)) =
      stripColorCodes ("ab#ff0000ffcd".toList) :=
  claim4_decode_text_eq_strip ("ab#ff0000ffcd".toList) (by decide)

/-- Claim C9: parseColoredString and stripColorCodes are total: every input
string decodes to a segment list in which each segment carries nonempty text
and an 8-character color, and stripping always returns a string no longer
than the input; neither operation has any failing branch. -/
theorem claim9_decode_strip_total (s : List Char) :
    (∀ seg ∈ parseColoredString s, seg.text ≠ [] ∧ seg.color.length = 8) ∧
      (stripColorCodes s).length ≤ s.length := by
  constructor
  · intro seg hseg
    unfold parseColoredString at hseg
    rcases hsp : splitOnHash s with _ | ⟨p0, rest⟩
    · rw [hsp] at hseg
      exact absurd hseg (List.not_mem_nil seg)
    · rw [hsp] at hseg
      simp only [List.mem_append] at hseg
      rcases hseg with h | h
      · split at h
        · rename_i hne
          rcases List.mem_singleton.1 h with rfl
          exact ⟨hne, rfl⟩
        · exact absurd h (List.not_mem_nil seg)
      · exact parseSegs_segment_shape rest seg h
  · unfold stripColorCodes
    rcases hsp : splitOnHash s with _ | ⟨p0, rest⟩
    · simp
    · have hsum := splitOnHash_length_sum s
      rw [hsp] at hsum
      simp only [List.map_cons, List.sum_cons] at hsum
      have hstrip := stripSegs_length rest
      simp only [List.length_append]
      omega

/-- Claim C10: stripColorCodes never leaves a '#' in its output, and is
therefore idempotent. -/
theorem claim10_strip_no_hash_idempotent :
    (∀ s : List Char, '#' ∉ stripColorCodes s) ∧
      ∀ s : List Char, stripColorCodes (stripColorCodes s) = stripColorCodes s :=
  ⟨not_hash_stripColorCodes, fun s =>
    stripColorCodes_of_not_mem (stripColorCodes s) (not_hash_stripColorCodes s)⟩

/-- Counterexample for claim C3: decoding "#abc" does not produce a segment
whose text is "#abc"; the '#' is not restored. -/
theorem claim3_counterexample :
    parseColoredString ("#abc".toList) ≠ [⟨"#abc".toList, whiteColor⟩] := by
  decide

/-- Claim C3 as amended: decoding "#abc" yields exactly one opaque-white
segment whose text is "abc" (the short payload is folded into plain text
without re-adding the '#'). -/
theorem claim3_decode_hash_abc :
    parseColoredString ("#abc".toList) = [⟨"abc".toList, whiteColor⟩] := by
  decide

/-! ## DataTable global filter and sorting (src/unnamed/part_005)
The reusable DataTable passes a custom `globalFilterFn` (embedded below as
`cellMatches`) to the table library; the library retains a row iff some
filterable column's cell passes that predicate, and `tableGlobalFilter`
embeds that harness.  Cell values are modelled already stringified, with
`none` standing for a null/undefined accessor value (the source checks
`value == null` before stringifying). -/

/-- Boolean test that the first list is an initial run of the second. -/
def leadsWith : List Char → List Char → Bool
  | [], _ => true
  | _ :: _, [] => false
  | a :: as, b :: bs => if a = b then leadsWith as bs else false

/-- Embedding of JavaScript `hay.includes(needle)`: contiguous containment. -/
def hasSubstring : List Char → List Char → Bool
  | [], needle => leadsWith needle []
  | c :: t, needle => leadsWith needle (c :: t) || hasSubstring t needle

/-- Color-stripped, lowercased normal form used by the global filter. -/
def lowerStrip (s : List Char) : List Char := (stripColorCodes s).map Char.toLower

/-- Embedding of the `globalFilterFn` closure in src/unnamed/part_005:
null values never match; otherwise the stripped lowercased value must
contain the stripped lowercased filter text. -/
def cellMatches (v : Option (List Char)) (f : List Char) : Bool :=
  match v with
  | none => false
  | some s => hasSubstring (lowerStrip s) (lowerStrip f)

/-- A row passes the global filter iff some filterable cell matches
(table library semantics for a global filter function). -/
def rowMatches (row : List (Option (List Char))) (f : List Char) : Bool :=
  row.any fun v => cellMatches v f

/-- The globally filtered row set of the DataTable.  The table library's
filtered row model skips global filtering entirely while the filter value is
empty (the search box starts empty and an emptied box removes the filter),
so an empty filter text leaves the row set untouched; otherwise a row is
retained iff some filterable cell passes `cellMatches`. -/
def tableGlobalFilter (rows : List (List (Option (List Char)))) (f : List Char) :
    List (List (Option (List Char))) :=
  if f = [] then rows else rows.filter fun r => rowMatches r f

theorem leadsWith_iff (n : List Char) :
    ∀ h : List Char, leadsWith n h = true ↔ ∃ t, h = n ++ t := by
  induction n with
  | nil => intro h; simp [leadsWith]
  | cons a as ih =>
    intro h
    cases h with
    | nil => simp [leadsWith]
    | cons b bs =>
      simp only [leadsWith]
      by_cases hab : a = b
      · subst hab
        rw [if_pos rfl, ih bs]
        constructor
        · rintro ⟨t, rfl⟩; exact ⟨t, rfl⟩
        · rintro ⟨t, ht⟩
          exact ⟨t, by simpa using ht⟩
      · rw [if_neg hab]
        simp only [Bool.false_eq_true, false_iff]
        rintro ⟨t, ht⟩
        simp only [List.cons_append, List.cons.injEq] at ht
        exact hab ht.1.symm

theorem hasSubstring_iff (hay n : List Char) :
    hasSubstring hay n = true ↔ ∃ pre post, hay = pre ++ n ++ post := by
  induction hay with
  | nil =>
    simp only [hasSubstring, leadsWith_iff]
    constructor
    · rintro ⟨t, ht⟩
      rcases List.append_eq_nil.1 ht.symm with ⟨rfl, rfl⟩
      exact ⟨[], [], rfl⟩
    · rintro ⟨pre, post, hp⟩
      rcases List.append_eq_nil.1 (List.append_eq_nil.1 hp.symm).1 with ⟨rfl, _⟩
      exact ⟨post, by simpa using hp⟩
  | cons c t ih =>
    simp only [hasSubstring, Bool.or_eq_true, leadsWith_iff, ih]
    constructor
    · rintro (⟨r, hr⟩ | ⟨pre, post, hp⟩)
      · exact ⟨[], r, by simpa using hr⟩
      · exact ⟨c :: pre, post, by simp [hp]⟩
    · rintro ⟨pre, post, hp⟩
      cases pre with
      | nil =>
        left
        exact ⟨post, by simpa using hp⟩
      | cons c0 pre0 =>
        right
        simp only [List.cons_append, List.cons.injEq] at hp
        exact ⟨pre0, post, hp.2⟩

theorem hasSubstring_nil_needle (hay : List Char) : hasSubstring hay [] = true := by
  cases hay with
  | nil => rfl
  | cons c t => simp [hasSubstring, leadsWith]

theorem lowerStrip_nil : lowerStrip [] = [] := rfl

/-- Claim C6: an empty filter text retains every row; a missing (null) cell
value never matches any filter text and never raises; and under a nonempty
filter text a row is retained iff at least one of its cells holds a present
value whose color-stripped lowercased text contains the color-stripped
lowercased filter text. -/
theorem claim6_global_filter (rows : List (List (Option (List Char)))) (f : List Char) :
    tableGlobalFilter rows [] = rows ∧
      cellMatches none f = false ∧
      (f ≠ [] → ∀ r, r ∈ tableGlobalFilter rows f ↔
        r ∈ rows ∧ ∃ v ∈ r, ∃ s, v = some s ∧
          ∃ pre post, lowerStrip s = pre ++ lowerStrip f ++ post) := by
  refine ⟨by unfold tableGlobalFilter; rw [if_pos rfl], rfl, ?_⟩
  intro hf r
  unfold tableGlobalFilter
  rw [if_neg hf]
  rw [List.mem_filter]
  unfold rowMatches
  rw [List.any_eq_true]
  constructor
  · rintro ⟨hr, v, hv, hmatch⟩
    refine ⟨hr, v, hv, ?_⟩
    cases v with
    | none => exact absurd hmatch (by simp [cellMatches])
    | some s =>
      exact ⟨s, rfl, (hasSubstring_iff (lowerStrip s) (lowerStrip f)).1 hmatch⟩
  · rintro ⟨hr, v, hv, s, rfl, hsub⟩
    exact ⟨hr, some s, hv, (hasSubstring_iff (lowerStrip s) (lowerStrip f)).2 hsub⟩

/-- Witness for claim C6 under the concrete nonempty filter text "a" on a
one-row table: the row is retained exactly because its present cell's
stripped lowercased text contains the filter text. -/
theorem claim6_global_filter_witness :
    [some ['a']] ∈ tableGlobalFilter [[some ['a']]] ['a'] ↔
      [some ['a']] ∈ [[some ['a']]] ∧ ∃ v ∈ [some ['a']], ∃ s, v = some s ∧
        ∃ pre post, lowerStrip s = pre ++ lowerStrip ['a'] ++ post :=
  (claim6_global_filter [[some ['a']]] ['a']).2.2 (by decide) [some ['a']]

/-- JavaScript-style three-way code-point comparison of strings. -/
def strCompare : List Char → List Char → Ordering
  | [], [] => .eq
  | [], _ :: _ => .lt
  | _ :: _, [] => .gt
  | a :: as, b :: bs =>
    if a < b then .lt else if b < a then .gt else strCompare as bs

/-- One member of the table library's default string-comparison family.
The useReactTable configuration in src/unnamed/part_005 installs no custom
sortingFn for any string column, so one of the library's data-dependent
defaults applies; every member of that family compares the raw accessed
strings (never the color-stripped text).  This member is the plain raw
code-point comparison (the case-sensitive default). -/
def basicStringCompare (a b : List Char) : Ordering := strCompare a b

/-- The case-folded member of the library's default string-comparison
family: code-point comparison of the lowercased raw strings. -/
def textStringCompare (a b : List Char) : Ordering :=
  strCompare (a.map Char.toLower) (b.map Char.toLower)

/-- The sorted row model of a string column under a given comparator:
stable ascending sort, a row staying before the next when the comparison
does not order it strictly greater. -/
def sortNamesBy (cmp : List Char → List Char → Ordering) (l : List (List Char)) :
    List (List Char) :=
  List.insertionSort (fun a b => cmp a b ≠ Ordering.gt) l

/-- The comparison the spec describes for string columns: code-point order of
the decoded, color-stripped plain texts. -/
def specStringCompare (a b : List Char) : Ordering :=
  strCompare (stripColorCodes a) (stripColorCodes b)

theorem strCompare_eq_iff (a : List Char) :
    ∀ b : List Char, strCompare a b = Ordering.eq ↔ a = b := by
  induction a with
  | nil =>
    intro b
    cases b with
    | nil => simp [strCompare]
    | cons b bs => simp [strCompare]
  | cons a as ih =>
    intro b
    cases b with
    | nil => simp [strCompare]
    | cons b bs =>
      simp only [strCompare]
      by_cases hab : a < b
      · rw [if_pos hab]
        simp only [List.cons.injEq]
        constructor
        · intro h; cases h
        · rintro ⟨rfl, -⟩; exact absurd hab (lt_irrefl a)
      · rw [if_neg hab]
        by_cases hba : b < a
        · rw [if_pos hba]
          simp only [List.cons.injEq]
          constructor
          · intro h; cases h
          · rintro ⟨rfl, -⟩; exact absurd hba (lt_irrefl a)
        · rw [if_neg hba]
          have hec : a = b := le_antisymm (le_of_not_lt hba) (le_of_not_lt hab)
          subst hec
          simp [ih bs]

/-- Counterexample for claim C7: "#ff0000ffbob" and "bob" strip to the same
plain text (their spec comparison is eq), yet their raw forms differ and the
raw comparisons the library defaults perform — with or without case folding
— do not treat them as equal, so color directives do affect the order.
(The library's digit-chunking default likewise compares their distinct
leading non-digit chunks by code points and separates them.) -/
theorem claim7_counterexample :
    stripColorCodes ("#ff0000ffbob".toList) = stripColorCodes ("bob".toList) ∧
      specStringCompare ("#ff0000ffbob".toList) ("bob".toList) = Ordering.eq ∧
      ("#ff0000ffbob".toList ≠ "bob".toList) ∧
      basicStringCompare ("#ff0000ffbob".toList) ("bob".toList) ≠ Ordering.eq ∧
      textStringCompare ("#ff0000ffbob".toList) ("bob".toList) ≠ Ordering.eq := by
  refine ⟨by decide, by decide, by decide, by decide, by decide⟩

/-- Claim C7 as amended: sorting a string column orders rows by the library
default comparison of the raw accessor strings, not of their stripped texts,
so embedded color directives can affect the resulting order: the two-row
table ["alice", "#ff0000ffbob"] sorts the directive-bearing name first under
the modelled raw defaults (its leading '#' precedes any letter), while the
ordering the spec describes — comparison of the stripped texts — would keep
"alice" first. -/
theorem claim7_sort_uses_raw_strings :
    sortNamesBy basicStringCompare ["alice".toList, "#ff0000ffbob".toList] =
        ["#ff0000ffbob".toList, "alice".toList] ∧
      sortNamesBy textStringCompare ["alice".toList, "#ff0000ffbob".toList] =
        ["#ff0000ffbob".toList, "alice".toList] ∧
      sortNamesBy specStringCompare ["alice".toList, "#ff0000ffbob".toList] =
        ["alice".toList, "#ff0000ffbob".toList] := by
  refine ⟨by decide, by decide, by decide⟩

/-! ## Speedrun leaderboard composite score (src/unnamed/part_000)
Both copies of SpeedrunLeaderboardPage derive `display_score` from the four
score buckets and the (levelScope, playerMode) filters, then sort
descending; the second copy additionally drops non-positive scores. -/

/-- The levels filter of the speedrun leaderboard pages. -/
inductive LevelScope
  | all
  | official
  | community
  deriving DecidableEq, Repr

/-- The mode filter of the speedrun leaderboard pages. -/
inductive PlayerMode
  | all
  | onep
  | twop
  deriving DecidableEq, Repr

/-- One fetched leaderboard entry (identity plus four score buckets). -/
structure SpeedrunEntry where
  player_uuid : List Char
  score_1p_official : ℚ
  score_2p_official : ℚ
  score_1p_community : ℚ
  score_2p_community : ℚ
  deriving DecidableEq, Repr

/-- Embedding of `parseFloat(score.toFixed(2))`: ECMAScript toFixed picks the
closest hundredth and on a tie the larger one, i.e. round half toward
positive infinity at two decimals. -/
def toFixed2 (q : ℚ) : ℚ := (⌊q * 100 + 1 / 2⌋ : ℚ) / 100

/-- Embedding of the filteredData score computation of the first
SpeedrunLeaderboardPage copy (src/unnamed/part_000 lines 78-97). -/
def displayScore (e : SpeedrunEntry) (levelScope : LevelScope) (playerMode : PlayerMode) : ℚ :=
  let includeOfficial := levelScope == LevelScope.all || levelScope == LevelScope.official
  let includeCommunity := levelScope == LevelScope.all || levelScope == LevelScope.community
  let include1p := playerMode == PlayerMode.all || playerMode == PlayerMode.onep
  let include2p := playerMode == PlayerMode.all || playerMode == PlayerMode.twop
  let s0 : ℚ := 0
  let s1 := if includeOfficial && include1p then s0 + e.score_1p_official else s0
  let s2 := if includeOfficial && include2p then s1 + e.score_2p_official else s1
  let s3 := if includeCommunity && include1p then s2 + e.score_1p_community else s2
  let s4 := if includeCommunity && include2p then s3 + e.score_2p_community else s3
  toFixed2 s4

/-- Embedding of the same computation in the second SpeedrunLeaderboardPage
copy (src/unnamed/part_000 lines 277-301); the body is line-for-line the
same as the first copy's. -/
def displayScoreB (e : SpeedrunEntry) (levelScope : LevelScope) (playerMode : PlayerMode) : ℚ :=
  let includeOfficial := levelScope == LevelScope.all || levelScope == LevelScope.official
  let includeCommunity := levelScope == LevelScope.all || levelScope == LevelScope.community
  let include1p := playerMode == PlayerMode.all || playerMode == PlayerMode.onep
  let include2p := playerMode == PlayerMode.all || playerMode == PlayerMode.twop
  let s0 : ℚ := 0
  let s1 := if includeOfficial && include1p then s0 + e.score_1p_official else s0
  let s2 := if includeOfficial && include2p then s1 + e.score_2p_official else s1
  let s3 := if includeCommunity && include1p then s2 + e.score_1p_community else s2
  let s4 := if includeCommunity && include2p then s3 + e.score_2p_community else s3
  toFixed2 s4

/-- Per the spec's words: a bucket's scope flag is included when the scope
axis selects "all" or exactly that scope. -/
def scopeIncluded (sel : LevelScope) (b : LevelScope) : Bool :=
  sel == LevelScope.all || sel == b

/-- Per the spec's words: a bucket's mode flag is included when the mode axis
selects "all" or exactly that mode. -/
def modeIncluded (sel : PlayerMode) (b : PlayerMode) : Bool :=
  sel == PlayerMode.all || sel == b

/-- An entry's four buckets tagged with their scope and mode flags. -/
def bucketList (e : SpeedrunEntry) : List ((LevelScope × PlayerMode) × ℚ) :=
  [((LevelScope.official, PlayerMode.onep), e.score_1p_official),
   ((LevelScope.official, PlayerMode.twop), e.score_2p_official),
   ((LevelScope.community, PlayerMode.onep), e.score_1p_community),
   ((LevelScope.community, PlayerMode.twop), e.score_2p_community)]

/-- The composite score as the spec words it: sum exactly the buckets whose
scope flag and mode flag are both included, then round the final sum once,
half up, to two decimals. -/
def specCompositeScore (e : SpeedrunEntry) (ls : LevelScope) (pm : PlayerMode) : ℚ :=
  toFixed2 ((((bucketList e).filter fun b =>
    scopeIncluded ls b.1.1 && modeIncluded pm b.1.2).map Prod.snd).sum)

set_option linter.unnecessarySeqFocus false in
/-- Claim C5: for every entry and every filter selection the computed
display score is the once-rounded (half-up, two decimals) sum of exactly the
buckets included by both filter axes; and the rounding is genuinely half-up:
a final sum of 0.125 rounds to 0.13. -/
theorem claim5_composite_score (e : SpeedrunEntry) (ls : LevelScope) (pm : PlayerMode) :
    displayScore e ls pm = specCompositeScore e ls pm ∧
      toFixed2 (1 / 8) = 13 / 100 := by
  constructor
  · cases ls <;> cases pm <;>
      (simp [displayScore, specCompositeScore, bucketList, scopeIncluded, modeIncluded]) <;>
      (congr 1; ring)
  · unfold toFixed2
    rw [show (1 : ℚ) / 8 * 100 + 1 / 2 = 13 from by norm_num]
    norm_num

/-- The sort comparator of both speedrun leaderboard copies,
`(a, b) => b.display_score - a.display_score`: descending display score,
with the tie behavior of a stable sort. -/
def byScoreDesc (a b : SpeedrunEntry × ℚ) : Prop := b.2 ≤ a.2

instance : DecidableRel byScoreDesc := fun a b =>
  inferInstanceAs (Decidable (b.2 ≤ a.2))

instance : IsTotal (SpeedrunEntry × ℚ) byScoreDesc :=
  ⟨fun a b => le_total b.2 a.2⟩

instance : IsTrans (SpeedrunEntry × ℚ) byScoreDesc :=
  ⟨fun _ _ _ h1 h2 => le_trans h2 h1⟩

/-- Pipeline of the first SpeedrunLeaderboardPage copy: score every entry,
then stable-sort by descending display score (JavaScript sort is stable;
modelled by insertion sort, whose output is the unique stable order). -/
def speedrunView1 (l : List SpeedrunEntry) (ls : LevelScope) (pm : PlayerMode) :
    List (SpeedrunEntry × ℚ) :=
  List.insertionSort byScoreDesc (l.map fun e => (e, displayScore e ls pm))

/-- Pipeline of the second SpeedrunLeaderboardPage copy: score every entry,
drop non-positive display scores, then stable-sort descending. -/
def speedrunView2 (l : List SpeedrunEntry) (ls : LevelScope) (pm : PlayerMode) :
    List (SpeedrunEntry × ℚ) :=
  List.insertionSort byScoreDesc
    (((l.map fun e => (e, displayScoreB e ls pm)).filter fun d => decide (0 < d.2)))

theorem orderedInsert_filter_neg {α : Type} (r : α → α → Prop) [DecidableRel r]
    (p : α → Bool) (x : α) (l : List α) (hx : p x = false) :
    (List.orderedInsert r x l).filter p = l.filter p := by
  induction l with
  | nil => simp [List.orderedInsert, List.filter, hx]
  | cons b bs ih =>
    by_cases hr : r x b
    · rw [List.orderedInsert_of_le r bs hr]
      simp [List.filter, hx]
    · simp only [List.orderedInsert, if_neg hr, List.filter]
      cases hpb : p b <;> simp [hpb, ih]

theorem orderedInsert_of_forall {α : Type} (r : α → α → Prop) [DecidableRel r]
    (x : α) (l : List α) (h : ∀ y ∈ l, r x y) :
    List.orderedInsert r x l = x :: l := by
  cases l with
  | nil => rfl
  | cons b bs =>
    exact List.orderedInsert_of_le r bs (h b (List.mem_cons_self b bs))

theorem orderedInsert_filter_pos {α : Type} (r : α → α → Prop) [DecidableRel r]
    [IsTrans α r] (p : α → Bool) (x : α) (l : List α)
    (hl : l.Sorted r) (hx : p x = true) :
    (List.orderedInsert r x l).filter p = List.orderedInsert r x (l.filter p) := by
  induction l with
  | nil => simp [List.orderedInsert, List.filter, hx]
  | cons b bs ih =>
    by_cases hr : r x b
    · rw [List.orderedInsert_of_le r bs hr]
      have hall : ∀ y ∈ (b :: bs).filter p, r x y := by
        intro y hy
        rcases List.mem_cons.1 (List.mem_of_mem_filter hy) with rfl | hy2
        · exact hr
        · exact Trans.trans hr (List.rel_of_sorted_cons hl y hy2)
      rw [orderedInsert_of_forall r x ((b :: bs).filter p) hall]
      simp [List.filter, hx]
    · simp only [List.orderedInsert, if_neg hr]
      cases hpb : p b with
      | true =>
        simp only [List.filter, hpb, cond_true]
        rw [List.orderedInsert, if_neg hr]
        simp only [List.filter] at ih ⊢
        rw [ih hl.of_cons]
      | false =>
        simp only [List.filter, hpb, cond_false]
        rw [ih hl.of_cons]

theorem insertionSort_filter {α : Type} (r : α → α → Prop) [DecidableRel r]
    [IsTotal α r] [IsTrans α r] (p : α → Bool) (l : List α) :
    (List.insertionSort r l).filter p = List.insertionSort r (l.filter p) := by
  induction l with
  | nil => rfl
  | cons x xs ih =>
    simp only [List.insertionSort]
    cases hx : p x with
    | true =>
      rw [orderedInsert_filter_pos r p x (List.insertionSort r xs)
        (List.sorted_insertionSort r xs) hx, ih]
      simp [List.filter, hx, List.insertionSort]
    | false =>
      rw [orderedInsert_filter_neg r p x (List.insertionSort r xs) hx, ih]
      simp [List.filter, hx]

/-- Claim C8 as amended: the two speedrun-leaderboard copies compute the same
display score for every entry and sort with the same stable descending
comparator; the second copy's visible list is exactly the first copy's with
non-positive display scores removed, so the two agree whenever every computed
display score is positive. -/
theorem claim8_speedrun_copies (l : List SpeedrunEntry) (ls : LevelScope) (pm : PlayerMode) :
    (∀ e : SpeedrunEntry, displayScoreB e ls pm = displayScore e ls pm) ∧
      speedrunView2 l ls pm = ((speedrunView1 l ls pm).filter fun d => decide (0 < d.2)) ∧
      ((∀ d ∈ speedrunView1 l ls pm, 0 < d.2) →
        speedrunView2 l ls pm = speedrunView1 l ls pm) := by
  have h2 : speedrunView2 l ls pm =
      ((speedrunView1 l ls pm).filter fun d => decide (0 < d.2)) := by
    unfold speedrunView2 speedrunView1
    exact (insertionSort_filter byScoreDesc _ _).symm
  refine ⟨fun e => rfl, h2, ?_⟩
  intro hall
  rw [h2]
  rw [List.filter_eq_self]
  intro d hd
  exact decide_eq_true (hall d hd)

/-- The all-zero entry gets display score 0 under the widest filters. -/
theorem displayScore_zero_entry :
    displayScore ⟨[], 0, 0, 0, 0⟩ LevelScope.all PlayerMode.all = 0 := by
  norm_num [displayScore, toFixed2]

/-- An entry whose only nonzero bucket is 1 gets display score 1. -/
theorem displayScore_unit_entry :
    displayScore ⟨[], 1, 0, 0, 0⟩ LevelScope.all PlayerMode.all = 1 := by
  norm_num [displayScore, toFixed2]

/-- Counterexample for claim C8: on a fetched list holding one entry whose
buckets are all 0, the first copy shows the entry (with display score 0)
while the second copy's visible set is empty — the two page implementations
do not produce the same set of visible entries. -/
theorem claim8_counterexample :
    speedrunView1 [⟨[], 0, 0, 0, 0⟩] LevelScope.all PlayerMode.all ≠
      speedrunView2 [⟨[], 0, 0, 0, 0⟩] LevelScope.all PlayerMode.all := by
  have hB : displayScoreB ⟨[], 0, 0, 0, 0⟩ LevelScope.all PlayerMode.all = 0 :=
    displayScore_zero_entry
  simp [speedrunView1, speedrunView2, List.insertionSort, List.orderedInsert,
    displayScore_zero_entry, hB]

/-- Witness for claim C8: on a list holding one entry with positive display
score the two copies agree exactly. -/
theorem claim8_speedrun_copies_witness :
    speedrunView2 [⟨[], 1, 0, 0, 0⟩] LevelScope.all PlayerMode.all =
      speedrunView1 [⟨[], 1, 0, 0, 0⟩] LevelScope.all PlayerMode.all :=
  (claim8_speedrun_copies [⟨[], 1, 0, 0, 0⟩] LevelScope.all PlayerMode.all).2.2 (by
    simp [speedrunView1, List.insertionSort, List.orderedInsert, displayScore_unit_entry])

/-! ## Compare page best/worst highlighting (src/frontend/app/compare/page.tsx)
Raw stored scores are integers (points, or pre-negated frame ticks for
value_type 1 rows).  `scores` is the list of present (non-missing) cohort
scores for one level row, and the cell holding score `s` is colored green
(best), red (worst), or left alone.  Both copies guard on more than one
present score; `listMax`/`listMin` embed `Math.max(...scores)` /
`Math.min(...scores)` and are only reached under that guard. -/

/-- The highlight state of one comparison cell. -/
inductive CellFlag
  | best
  | worst
  | neutral
  deriving DecidableEq, Repr

/-- Embedding of `Math.max(...scores)` (guarded nonempty). -/
def listMax : List ℤ → ℤ
  | [] => 0
  | x :: xs => xs.foldl max x

/-- Embedding of `Math.min(...scores)` (guarded nonempty). -/
def listMin : List ℤ → ℤ
  | [] => 0
  | x :: xs => xs.foldl min x

/-- Embedding of the first ComparePage copy's cell coloring (lines 346-376):
it special-cases value_type 1 (speedrun) rows, swapping best and worst. -/
def cellFlag1 (value_type : ℤ) (scores : List ℤ) (s : ℤ) : CellFlag :=
  if 1 < scores.length then
    let maxScore := listMax scores
    let minScore := listMin scores
    let bestScore := if value_type = 1 then minScore else maxScore
    let worstScore := if value_type = 1 then maxScore else minScore
    if s = bestScore then CellFlag.best
    else if s = worstScore then CellFlag.worst
    else CellFlag.neutral
  else CellFlag.neutral

/-- Embedding of the second CompareContent copy's cell coloring (lines
1041-1060): best is always the maximum raw score and worst the minimum,
with no use of value_type. -/
def cellFlag2 (_value_type : ℤ) (scores : List ℤ) (s : ℤ) : CellFlag :=
  if 1 < scores.length then
    let bestScore := listMax scores
    let worstScore := listMin scores
    if s = bestScore then CellFlag.best
    else if s = worstScore then CellFlag.worst
    else CellFlag.neutral
  else CellFlag.neutral

/-- Counterexample for claim C2: on a value_type 1 row with present scores
-100 and -200 (negated ticks), the first ComparePage copy flags the cell
holding -100 as worst even though -100 is the cohort maximum — the code does
special-case value_type, against the claim. -/
theorem claim2_counterexample :
    listMax [(-100 : ℤ), -200] = -100 ∧
      cellFlag1 1 [(-100 : ℤ), -200] (-100) = CellFlag.worst ∧
      cellFlag1 1 [(-100 : ℤ), -200] (-100) ≠ CellFlag.best := by
  refine ⟨by decide, by decide, by decide⟩

/-- Claim C2 as amended: the second (CompareContent) copy never
special-cases value_type — its flags are the same for every value_type, a
cell is best iff its raw score equals the cohort maximum, and worst iff it
equals the minimum without also being the maximum; the first (ComparePage)
copy instead swaps best and worst on value_type 1 rows. -/
theorem claim2_cohort_extremes (value_type : ℤ) (scores : List ℤ) (s : ℤ)
    (h : 1 < scores.length) :
    cellFlag2 value_type scores s = cellFlag2 0 scores s ∧
      (cellFlag2 value_type scores s = CellFlag.best ↔ s = listMax scores) ∧
      (cellFlag2 value_type scores s = CellFlag.worst ↔
        s = listMin scores ∧ s ≠ listMax scores) := by
  unfold cellFlag2
  rw [if_pos h]
  by_cases hb : s = listMax scores
  · simp [hb]
  · by_cases hw : s = listMin scores <;> simp [hb, hw]

/-- Witness for claim C2 at the concrete cohort {3, 5}: the cell holding 5
is flagged best in the second copy, independent of value_type. -/
theorem claim2_cohort_extremes_witness :
    (cellFlag2 1 [(3 : ℤ), 5] 5 = cellFlag2 0 [(3 : ℤ), 5] 5) ∧
      (cellFlag2 1 [(3 : ℤ), 5] 5 = CellFlag.best ↔ (5 : ℤ) = listMax [(3 : ℤ), 5]) ∧
      (cellFlag2 1 [(3 : ℤ), 5] 5 = CellFlag.worst ↔
        (5 : ℤ) = listMin [(3 : ℤ), 5] ∧ (5 : ℤ) ≠ listMax [(3 : ℤ), 5]) :=
  claim2_cohort_extremes 1 [(3 : ℤ), 5] 5 (by decide)

/-! ## Time display of tick-encoded scores
Embeds the value_type 1 score cell of the player profile page
(src/unnamed/part_002 lines 634-644, using Math.abs) and of the second
compare-page copy (src/frontend/app/compare/page.tsx lines 1063-1072, which
negates instead), plus the spec's formatTicksAsTime with its carry rule. -/

/-- JavaScript truncating division step used by the `%` operator. -/
def qtrunc (q : ℚ) : ℤ := if 0 ≤ q then ⌊q⌋ else -⌊-q⌋

/-- Embedding of the JavaScript remainder `a % b` (sign follows `a`). -/
def jsMod (a b : ℚ) : ℚ := a - b * (qtrunc (a / b) : ℚ)

/-- Embedding of `Math.round` (half toward positive infinity). -/
def jsRound (q : ℚ) : ℤ := ⌊q + 1 / 2⌋

/-- Embedding of `n.toString().padStart(2, "0")`. -/
def pad2 (n : ℤ) : String :=
  if 2 ≤ (toString n).length then toString n else "0" ++ toString n

/-- Embedding of the player-profile score cell for value_type 1
(src/unnamed/part_002): absolute ticks over 30, floored minutes and
seconds, rounded centiseconds, no carry. -/
def formatTicksProfile (val : ℚ) : String :=
  let totalSeconds := |val| / 30
  let minutes := ⌊totalSeconds / 60⌋
  let seconds := ⌊jsMod totalSeconds 60⌋
  let fraction := jsRound ((totalSeconds - (⌊totalSeconds⌋ : ℚ)) * 100)
  toString minutes ++ ":" ++ pad2 seconds ++ "." ++ pad2 fraction

/-- Embedding of the compare-page score cell for value_type 1 (second
CompareContent copy): the raw score is negated, not taken absolute. -/
def formatTicksCompare (score : ℚ) : String :=
  let totalSeconds := score * (-1) / 30
  let minutes := ⌊totalSeconds / 60⌋
  let seconds := ⌊jsMod totalSeconds 60⌋
  let fraction := jsRound ((totalSeconds - (⌊totalSeconds⌋ : ℚ)) * 100)
  toString minutes ++ ":" ++ pad2 seconds ++ "." ++ pad2 fraction

/-- The claim's formatTicksAsTime: same conversion as the profile cell but
with the explicit carry of a centisecond value of 100 into seconds, and of a
resulting seconds value of 60 into minutes. -/
def specFormatTicksAsTime (raw : ℚ) : String :=
  let totalSeconds := |raw| / 30
  let minutes := ⌊totalSeconds / 60⌋
  let seconds := ⌊jsMod totalSeconds 60⌋
  let fraction := jsRound ((totalSeconds - (⌊totalSeconds⌋ : ℚ)) * 100)
  let secondsCarried := if fraction = 100 then seconds + 1 else seconds
  let fractionCarried := if fraction = 100 then 0 else fraction
  let minutesCarried := if secondsCarried = 60 then minutes + 1 else minutes
  let secondsFinal := if secondsCarried = 60 then 0 else secondsCarried
  toString minutesCarried ++ ":" ++ pad2 secondsFinal ++ "." ++ pad2 fractionCarried

theorem fract_abs_div_thirty_le (t : ℤ) :
    Int.fract (|(t : ℚ)| / 30) ≤ 29 / 30 := by
  have habs : |(t : ℚ)| = ((t.natAbs : ℕ) : ℚ) := by
    rw [Int.cast_natAbs, Int.cast_abs]
  rw [habs]
  obtain ⟨k, m, hm, hdecomp⟩ : ∃ k m, m < 30 ∧ t.natAbs = 30 * k + m :=
    ⟨t.natAbs / 30, t.natAbs % 30, Nat.mod_lt _ (by norm_num),
      (Nat.div_add_mod t.natAbs 30).symm⟩
  rw [hdecomp]
  have hsplit : ((30 * k + m : ℕ) : ℚ) / 30 = ((k : ℤ) : ℚ) + (m : ℚ) / 30 := by
    push_cast
    ring
  rw [hsplit, Int.fract_int_add]
  have hmlt : (m : ℚ) / 30 < 1 := by
    rw [div_lt_one (by norm_num : (0 : ℚ) < 30)]
    exact_mod_cast hm
  rw [Int.fract_eq_self.2 ⟨by positivity, hmlt⟩]
  have hm29 : (m : ℚ) ≤ 29 := by
    have : m ≤ 29 := by omega
    exact_mod_cast this
  linarith

theorem fraction_le_97 (t : ℤ) :
    jsRound ((|(t : ℚ)| / 30 - (⌊|(t : ℚ)| / 30⌋ : ℚ)) * 100) ≤ 97 := by
  unfold jsRound
  rw [Int.self_sub_floor]
  have hf := fract_abs_div_thirty_le t
  have hmono : Int.fract (|(t : ℚ)| / 30) * 100 + 1 / 2 ≤ (29 : ℚ) / 30 * 100 + 1 / 2 := by
    linarith
  calc ⌊Int.fract (|(t : ℚ)| / 30) * 100 + 1 / 2⌋
      ≤ ⌊(29 : ℚ) / 30 * 100 + 1 / 2⌋ := Int.floor_le_floor hmono
    _ = 97 := by norm_num

theorem floor_jsMod_sixty_lt (q : ℚ) (hq : 0 ≤ q) : ⌊jsMod q 60⌋ < 60 := by
  unfold jsMod qtrunc
  rw [if_pos (by positivity : (0 : ℚ) ≤ q / 60)]
  rw [Int.floor_lt]
  have hfr := Int.fract_lt_one (q / 60)
  have heq : q - 60 * ((⌊q / 60⌋ : ℤ) : ℚ) = 60 * (q / 60 - ⌊q / 60⌋) := by ring
  have hfr2 : q / 60 - ((⌊q / 60⌋ : ℤ) : ℚ) = Int.fract (q / 60) := Int.self_sub_floor (q / 60)
  rw [heq, hfr2]
  push_cast
  linarith

/-- Claim C1 as amended: for every integer raw tick value the player-profile
formatter (which takes the absolute value) renders exactly the spec's
formatTicksAsTime — for integer ticks the rounded centisecond value never
reaches 100 (it is at most 97), so the carry branch never fires and the
carry-free implementation is correct; in particular 1800 renders as
"1:00.00" and -5400 as "3:00.00". -/
theorem claim1_time_format (t : ℤ) :
    formatTicksProfile (t : ℚ) = specFormatTicksAsTime (t : ℚ) ∧
      formatTicksProfile 1800 = "1:00.00" ∧
      formatTicksProfile (-5400) = "3:00.00" := by
  refine ⟨?_, ?_, ?_⟩
  · have h1 : jsRound ((|(t : ℚ)| / 30 - (⌊|(t : ℚ)| / 30⌋ : ℚ)) * 100) ≠ 100 := by
      have := fraction_le_97 t
      omega
    have h2 : ⌊jsMod (|(t : ℚ)| / 30) 60⌋ ≠ 60 := by
      have := floor_jsMod_sixty_lt (|(t : ℚ)| / 30) (by positivity)
      omega
    simp only [formatTicksProfile, specFormatTicksAsTime]
    rw [if_neg h1, if_neg h1, if_neg h2, if_neg h2]
  · norm_num [formatTicksProfile, jsMod, qtrunc, jsRound]
    decide
  · norm_num [formatTicksProfile, jsMod, qtrunc, jsRound]
    decide

/-- Counterexample for claim C1: the compare-page copy negates the raw score
instead of taking its absolute value, so the positive tick value 1800
renders as "-1:00.00", not the claimed "1:00.00" — the sign is not ignored
there. -/
theorem claim1_counterexample :
    formatTicksCompare 1800 = "-1:00.00" ∧ formatTicksCompare 1800 ≠ "1:00.00" := by
  have h : formatTicksCompare 1800 = "-1:00.00" := by
    norm_num [formatTicksCompare, jsMod, qtrunc, jsRound]
    decide
  refine ⟨h, ?_⟩
  rw [h]
  decide
